import Mathlib

/-!
Verification of the Bitcoin address collector
(src/scripts/bitcoin/collect_bitcoin_addresses_db.py).

Python byte strings are modelled as `List Nat` (each element < 256 where it
matters), Python `str` as Lean `String`, Python `dict` as ordered association
lists and Python `set` as lists with add-if-absent insertion.  The hash
primitives `hashlib.sha256` / `ripemd160` and the external `CScript` element
iterator come from outside the repository and are taken as explicit function
parameters; everything else is translated from the source.
-/

/-- Python slice `l[a:b]` on a byte string. -/
def listSlice (l : List Nat) (a b : Nat) : List Nat :=
  (l.drop a).take (b - a)

/-- Python `int.from_bytes(bs, big)`. -/
def bytesToNat (bs : List Nat) : Nat :=
  bs.foldl (fun acc b => acc * 256 + b) 0

/-- Python `n.to_bytes(len, big)` (big-endian, fixed width). -/
def natToBytes : Nat → Nat → List Nat
  | 0, _ => []
  | l + 1, n => natToBytes l (n / 256) ++ [n % 256]

/-- Little-endian fixed-width byte encoding (as produced by `struct.pack` with
the unsigned little-endian formats). -/
def natToBytesLE : Nat → Nat → List Nat
  | 0, _ => []
  | l + 1, n => n % 256 :: natToBytesLE l (n / 256)

/-- Little-endian byte-string decoding (Python `struct.unpack` of the unsigned
little-endian formats). -/
def leBytesToNat : List Nat → Nat
  | [] => 0
  | b :: rest => b + 256 * leBytesToNat rest

theorem natToBytes_length (l n : Nat) : (natToBytes l n).length = l := by
  induction l generalizing n with
  | zero => rfl
  | succ k ih => simp [natToBytes, ih]

theorem natToBytesLE_length (l n : Nat) : (natToBytesLE l n).length = l := by
  induction l generalizing n with
  | zero => rfl
  | succ k ih => simp [natToBytesLE, ih]

theorem natToBytes_lt (l n : Nat) : ∀ b ∈ natToBytes l n, b < 256 := by
  induction l generalizing n with
  | zero => intro b hb; simp [natToBytes] at hb
  | succ k ih =>
    intro b hb
    simp only [natToBytes, List.mem_append, List.mem_singleton] at hb
    rcases hb with hb | hb
    · exact ih _ b hb
    · subst hb; exact Nat.mod_lt _ (by omega)

theorem bytesToNat_append_single (bs : List Nat) (b : Nat) :
    bytesToNat (bs ++ [b]) = bytesToNat bs * 256 + b := by
  simp [bytesToNat, List.foldl_append]

theorem bytesToNat_natToBytes_mod (l n : Nat) :
    bytesToNat (natToBytes l n) = n % 256 ^ l := by
  induction l generalizing n with
  | zero => simp [natToBytes, bytesToNat, Nat.mod_one]
  | succ k ih =>
    rw [natToBytes, bytesToNat_append_single, ih]
    have h256 : (256 : Nat) ^ (k + 1) = 256 * 256 ^ k := by ring
    rw [h256, Nat.mod_mul]
    omega

theorem leBytesToNat_natToBytesLE_mod (l n : Nat) :
    leBytesToNat (natToBytesLE l n) = n % 256 ^ l := by
  induction l generalizing n with
  | zero => simp [natToBytesLE, leBytesToNat, Nat.mod_one]
  | succ k ih =>
    rw [natToBytesLE, leBytesToNat, ih]
    have : (256 : Nat) ^ (k + 1) = 256 * 256 ^ k := by ring
    rw [this, Nat.mod_mul]

theorem bytesToNat_foldl_lt (bs : List Nat) :
    ∀ acc, (∀ b ∈ bs, b < 256) →
      List.foldl (fun a b => a * 256 + b) acc bs < (acc + 1) * 256 ^ bs.length := by
  induction bs with
  | nil => intro acc _; simp [Nat.lt_succ_self]
  | cons b rest ih =>
    intro acc h
    have hb : b < 256 := h b (by simp)
    have hrest : ∀ c ∈ rest, c < 256 := fun c hc => h c (by simp [hc])
    have h1 := ih (acc * 256 + b) hrest
    have h2 : (acc * 256 + b + 1) * 256 ^ rest.length ≤
        ((acc + 1) * 256) * 256 ^ rest.length := by
      apply Nat.mul_le_mul_right
      omega
    calc List.foldl (fun a b => a * 256 + b) acc (b :: rest)
        = List.foldl (fun a b => a * 256 + b) (acc * 256 + b) rest := by simp
      _ < (acc * 256 + b + 1) * 256 ^ rest.length := h1
      _ ≤ ((acc + 1) * 256) * 256 ^ rest.length := h2
      _ = (acc + 1) * 256 ^ (b :: rest).length := by
          simp [List.length_cons]; ring

theorem bytesToNat_lt (bs : List Nat) (h : ∀ b ∈ bs, b < 256) :
    bytesToNat bs < 256 ^ bs.length := by
  have := bytesToNat_foldl_lt bs 0 h
  simpa [bytesToNat] using this

theorem natToBytes_bytesToNat (bs : List Nat) (h : ∀ b ∈ bs, b < 256) :
    natToBytes bs.length (bytesToNat bs) = bs := by
  induction bs using List.reverseRecOn with
  | nil => rfl
  | append_singleton xs x ih =>
    have hx : x < 256 := h x (by simp)
    have hxs : ∀ b ∈ xs, b < 256 := fun b hb => h b (by simp [hb])
    rw [bytesToNat_append_single, List.length_append, List.length_singleton,
      natToBytes]
    have hdiv : (bytesToNat xs * 256 + x) / 256 = bytesToNat xs := by omega
    have hmod : (bytesToNat xs * 256 + x) % 256 = x := by omega
    rw [hdiv, hmod, ih hxs]

/-! ### Hex encoding and decoding

Models Python `bytes.hex()` (lowercase) and `bytes.fromhex(...)`.
`bytes.fromhex` is modelled for whitespace-free strings; it accepts both
lowercase and uppercase digits and fails (raising in Python, `none` here) on
any other character or an odd number of digits. -/

set_option maxRecDepth 40000

/-- Lowercase hex digit for a value below 16 (`bytes.hex()` output digit). -/
def hexDigitLower (d : Nat) : Char :=
  if d < 10 then Char.ofNat (48 + d) else Char.ofNat (87 + d)

/-- The character list of `bs.hex()`. -/
def hexEncodeList : List Nat → List Char
  | [] => []
  | b :: rest => hexDigitLower (b / 16) :: hexDigitLower (b % 16) :: hexEncodeList rest

/-- Python `bs.hex()`. -/
def hexEncodeBytes (bs : List Nat) : String :=
  String.mk (hexEncodeList bs)

/-- Value of one hex digit character, case-insensitive (`bytes.fromhex`). -/
def hexDigitVal (c : Char) : Option Nat :=
  if 48 ≤ c.toNat ∧ c.toNat ≤ 57 then some (c.toNat - 48)
  else if 97 ≤ c.toNat ∧ c.toNat ≤ 102 then some (c.toNat - 87)
  else if 65 ≤ c.toNat ∧ c.toNat ≤ 70 then some (c.toNat - 55)
  else none

/-- Decode a character list as hex digit pairs (`bytes.fromhex`). -/
def hexDecodeList : List Char → Option (List Nat)
  | [] => some []
  | [_] => none
  | c1 :: c2 :: rest =>
    match hexDigitVal c1, hexDigitVal c2, hexDecodeList rest with
    | some h, some l, some tail => some ((h * 16 + l) :: tail)
    | _, _, _ => none

/-- Python `bytes.fromhex(s)` (whitespace-free model): `none` models the
`ValueError` that the callers in the source catch. -/
def hexDecodeStr (s : String) : Option (List Nat) :=
  hexDecodeList s.data

theorem hexDigitVal_hexDigitLower (d : Nat) (h : d < 16) :
    hexDigitVal (hexDigitLower d) = some d := by
  interval_cases d <;> rfl

theorem hexDecodeList_hexEncodeList (bs : List Nat) (h : ∀ b ∈ bs, b < 256) :
    hexDecodeList (hexEncodeList bs) = some bs := by
  induction bs with
  | nil => rfl
  | cons b rest ih =>
    have hb : b < 256 := h b (by simp)
    have hrest : ∀ c ∈ rest, c < 256 := fun c hc => h c (by simp [hc])
    have h1 : b / 16 < 16 := by omega
    have h2 : b % 16 < 16 := by omega
    rw [hexEncodeList, hexDecodeList, hexDigitVal_hexDigitLower _ h1,
      hexDigitVal_hexDigitLower _ h2, ih hrest]
    have hdm : b / 16 * 16 + b % 16 = b := by omega
    simp only [hdm]

theorem hexDecodeStr_hexEncodeBytes (bs : List Nat) (h : ∀ b ∈ bs, b < 256) :
    hexDecodeStr (hexEncodeBytes bs) = some bs :=
  hexDecodeList_hexEncodeList bs h

theorem hexEncodeBytes_ne_empty (b : Nat) (rest : List Nat) :
    hexEncodeBytes (b :: rest) ≠ "" := by
  intro hcontra
  have : (hexEncodeBytes (b :: rest)).data = ("" : String).data := by rw [hcontra]
  simp [hexEncodeBytes, hexEncodeList] at this

theorem hexEncodeList_append (l1 l2 : List Nat) :
    hexEncodeList (l1 ++ l2) = hexEncodeList l1 ++ hexEncodeList l2 := by
  induction l1 with
  | nil => rfl
  | cons b rest ih => simp [hexEncodeList, ih]

/-! ### Modular exponentiation

Python's built-in three-argument `pow(b, e, m)`.  The fuel-structured
recursion computes by repeated squaring so that concrete instances reduce in
the kernel; `powMod_eq` relates it to `b ^ e % m`. -/

def powModFuel (m : Nat) : Nat → Nat → Nat → Nat
  | 0, _, _ => 1 % m
  | fuel + 1, b, e =>
    if e = 0 then 1 % m
    else
      let h := powModFuel m fuel b (e / 2)
      let h2 := h * h % m
      if e % 2 = 1 then h2 * b % m else h2

/-- Python `pow(b, e, m)`. -/
def powMod (b e m : Nat) : Nat :=
  powModFuel m e b e

theorem powModFuel_eq (m : Nat) :
    ∀ fuel b e, e ≤ fuel → powModFuel m fuel b e = b ^ e % m := by
  intro fuel
  induction fuel with
  | zero =>
    intro b e he
    have : e = 0 := by omega
    subst this
    simp [powModFuel]
  | succ k ih =>
    intro b e he
    rw [powModFuel]
    by_cases h0 : e = 0
    · subst h0; simp
    · rw [if_neg h0]
      have hhalf : e / 2 ≤ k := by omega
      rw [ih b (e / 2) hhalf]
      have hsplit : e = e / 2 + e / 2 + e % 2 := by omega
      have hmm2 : b ^ (e / 2) % m * (b ^ (e / 2) % m) % m =
          b ^ (e / 2) * b ^ (e / 2) % m := (Nat.mul_mod (b ^ (e / 2)) (b ^ (e / 2)) m).symm
      by_cases hodd : e % 2 = 1
      · rw [if_pos hodd]
        conv_rhs => rw [hsplit, hodd]
        rw [pow_add, pow_add, pow_one, hmm2, Nat.mod_mul_mod]
      · rw [if_neg hodd]
        have heven : e % 2 = 0 := by omega
        conv_rhs => rw [hsplit, heven]
        rw [Nat.add_zero, pow_add, hmm2]

theorem powMod_eq (b e m : Nat) : powMod b e m = b ^ e % m :=
  powModFuel_eq m e b e (Nat.le_refl e)

theorem powMod_lt (b e m : Nat) (hm : 0 < m) : powMod b e m < m := by
  rw [powMod_eq]
  exact Nat.mod_lt _ hm

/-! ### Key-format converter
(`FastAddressCollector.compress_pubkey` / `uncompress_pubkey`). -/

/-- The secp256k1 field prime `p` (source line 507). -/
def secp_p : Nat :=
  0xFFFFFFFFFFFFFFFFFFFFFFFFFFFFFFFFFFFFFFFFFFFFFFFFFFFFFFFEFFFFFC2F

/-- `FastAddressCollector.compress_pubkey`.  The Python code returns the
input string itself both from the already-compressed branch and from the
final fall-through (which is also reached when `bytes.fromhex` raises), so
those paths collapse to returning the input. -/
def compress_pubkey (pubkey_hex : String) : String :=
  if pubkey_hex = "" then ""
  else
    match hexDecodeStr pubkey_hex with
    | none => pubkey_hex
    | some bs =>
      if bs.length = 65 ∧ bs.getD 0 0 = 4 then
        let y_int := bytesToNat (listSlice bs 33 65)
        let pfx : Nat := if y_int % 2 = 0 then 2 else 3
        hexEncodeBytes (pfx :: listSlice bs 1 33)
      else pubkey_hex

/-- The core 33-byte branch of `uncompress_pubkey` (source lines 504-536),
after hex decoding: secp256k1 point decompression. -/
def uncompressCore (bs : List Nat) : String :=
  let x := bytesToNat (listSlice bs 1 33)
  let y_squared := (powMod x 3 secp_p + 7) % secp_p
  let y_root := powMod y_squared ((secp_p + 1) / 4) secp_p
  let y :=
    if bs.getD 0 0 = 2 then (if y_root % 2 = 0 then y_root else secp_p - y_root)
    else if bs.getD 0 0 = 3 then (if y_root % 2 = 0 then secp_p - y_root else y_root)
    else y_root
  hexEncodeBytes (4 :: (natToBytes 32 x ++ natToBytes 32 y))

/-- `FastAddressCollector.uncompress_pubkey`.  A `bytes.fromhex` failure is
caught and yields the empty string, as does any length/prefix shape other
than the two valid ones. -/
def uncompress_pubkey (pubkey_hex : String) : String :=
  if pubkey_hex = "" then ""
  else
    match hexDecodeStr pubkey_hex with
    | none => ""
    | some bs =>
      if bs.length = 65 ∧ bs.getD 0 0 = 4 then pubkey_hex
      else if bs.length = 33 ∧ (bs.getD 0 0 = 2 ∨ bs.getD 0 0 = 3) then
        uncompressCore bs
      else ""

/-! ### Base58 encoding (the external `base58.b58encode`, used verbatim by the
address-derivation code paths). -/

/-- The Base58 alphabet. -/
def b58Alphabet : List Char :=
  "123456789ABCDEFGHJKLMNPQRSTUVWXYZabcdefghijkmnopqrstuvwxyz".data

/-- Base-58 digits of `n` (most significant first), empty for `n = 0`. -/
def b58DigitsAux : Nat → Nat → List Char → List Char
  | 0, _, acc => acc
  | fuel + 1, n, acc =>
    if n = 0 then acc
    else b58DigitsAux fuel (n / 58) (b58Alphabet.getD (n % 58) '1' :: acc)

def b58Digits (n : Nat) : List Char :=
  b58DigitsAux n n []

/-- Count of leading zero bytes. -/
def countLeadingZeroBytes : List Nat → Nat
  | [] => 0
  | b :: rest => if b = 0 then countLeadingZeroBytes rest + 1 else 0

/-- `base58.b58encode(bs).decode()`: one alphabet character (a 1) per leading
zero byte, then the base-58 digits of the value of the byte string. -/
def b58encode (bs : List Nat) : String :=
  String.mk (List.replicate (countLeadingZeroBytes bs) '1' ++ b58Digits (bytesToNat bs))

theorem b58encode_zero_head_ne_empty (rest : List Nat) :
    b58encode (0 :: rest) ≠ "" := by
  intro hcontra
  have hdata : (b58encode (0 :: rest)).data = ("" : String).data := by rw [hcontra]
  simp [b58encode, countLeadingZeroBytes, List.replicate_succ] at hdata

/-! ### The address record
(`BitcoinAddress` dataclass, source lines 34-47). -/

structure BitcoinAddress where
  address : String
  public_key : String
  public_key_compressed : String
  public_key_uncompressed : String
  balance : Nat
  first_seen_block : Nat
  last_activity_block : Nat
  tags : List String
  is_miner : Bool
  is_unspent : Bool
  has_spent : Bool
deriving DecidableEq

/-! ### Script classifier
(`UTXODatabase.extract_address_from_script`, source lines 114-156).
`sha256` and `ripemd160` are the external `hashlib` primitives, taken as
parameters. -/

def OP_DUP : Nat := 0x76
def OP_HASH160 : Nat := 0xa9
def OP_EQUALVERIFY : Nat := 0x88
def OP_CHECKSIG : Nat := 0xac

/-- `Base58Check` address construction shared by the three derivation sites in
the source (version byte `0x00`, double-SHA256 checksum). -/
def addressFromHash160 (sha256 : List Nat → List Nat) (h160 : List Nat) : String :=
  b58encode ((0 :: h160) ++ (sha256 (sha256 (0 :: h160))).take 4)

/-- `UTXODatabase.extract_address_from_script`: returns (address, pubkey hex).
The `try` block in the source has no raising statement, so the `except` path
is dead and the translation is total. -/
def extract_address_from_script (sha256 ripemd160 : List Nat → List Nat)
    (script : List Nat) : String × String :=
  if script.length = 0 then ("", "")
  else if script.length = 25 ∧ script.getD 0 0 = OP_DUP ∧
      script.getD 1 0 = OP_HASH160 ∧ script.getD 2 0 = 20 ∧
      script.getD 23 0 = OP_EQUALVERIFY ∧ script.getD 24 0 = OP_CHECKSIG then
    (addressFromHash160 sha256 (listSlice script 3 23), "")
  else if 35 ≤ script.length ∧ script.getD (script.length - 1) 0 = OP_CHECKSIG ∧
      (script.getD 0 0 = 33 ∨ script.getD 0 0 = 65) then
    if script.length = script.getD 0 0 + 2 then
      (addressFromHash160 sha256 (ripemd160 (sha256 (listSlice script 1 (1 + script.getD 0 0)))),
       hexEncodeBytes (listSlice script 1 (1 + script.getD 0 0)))
    else ("", "")
  else ("", "")

/-! ### UTXO key/value decoders
(`UTXODatabase.decode_utxo_key` / `decode_utxo_value`, source lines 67-112). -/

/-- The `for byte in vout_data` accumulation loop of `decode_utxo_key`: low 7
bits of each byte are data, the loop stops after the first byte with the high
bit clear, and simply ends (keeping the accumulated value) if the input runs
out first. -/
def contVarintLoop : List Nat → Nat → Nat → Nat
  | [], acc, _ => acc
  | b :: rest, acc, shift =>
    let acc2 := acc ||| ((b &&& 0x7f) <<< shift)
    if b &&& 0x80 = 0 then acc2 else contVarintLoop rest acc2 (shift + 7)

/-- `UTXODatabase.decode_utxo_key`: `none` models the `(None, None)` return. -/
def decode_utxo_key (key : List Nat) : Option (List Nat × Nat) :=
  if key.length < 33 then none
  else if key.getD 0 0 ≠ 0x43 then none
  else some (listSlice key 1 33, contVarintLoop (key.drop 33) 0 0)

/-- The `while pos < len(value)` amount loop of `decode_utxo_value`: returns
the accumulated amount and the number of bytes consumed. -/
def valueVarintLoop : List Nat → Nat → Nat → Nat × Nat
  | [], acc, _ => (acc, 0)
  | b :: rest, acc, shift =>
    let acc2 := acc ||| ((b &&& 0x7f) <<< shift)
    if b &&& 0x80 = 0 then (acc2, 1)
    else
      let r := valueVarintLoop rest acc2 (shift + 7)
      (r.1, r.2 + 1)

/-- `UTXODatabase.decode_utxo_value`: (amount, locking script). -/
def decode_utxo_value (value : List Nat) : Nat × List Nat :=
  if value.length < 1 then (0, [])
  else
    let r := valueVarintLoop value 0 0
    (r.1, value.drop r.2)

/-! ### CompactSize decoder
(`BlockchainScanner.read_varint`, source lines 364-384). -/

/-- `BlockchainScanner.read_varint data pos`: (value, bytes consumed);
`(0, 0)` models the insufficient-bytes decode failure. -/
def read_varint (data : List Nat) (pos : Nat) : Nat × Nat :=
  if data.length ≤ pos then (0, 0)
  else
    let first_byte := data.getD pos 0
    if first_byte < 0xfd then (first_byte, 1)
    else if first_byte = 0xfd then
      if data.length < pos + 3 then (0, 0)
      else (leBytesToNat (listSlice data (pos + 1) (pos + 3)), 3)
    else if first_byte = 0xfe then
      if data.length < pos + 5 then (0, 0)
      else (leBytesToNat (listSlice data (pos + 1) (pos + 5)), 5)
    else
      if data.length < pos + 9 then (0, 0)
      else (leBytesToNat (listSlice data (pos + 1) (pos + 9)), 9)


/-! ### Address map (Python `dict` keyed by address, as an ordered
association list). -/

def mapLookup : List (String × BitcoinAddress) → String → Option BitcoinAddress
  | [], _ => none
  | p :: rest, a => if p.1 = a then some p.2 else mapLookup rest a

/-- `addresses[address].balance += amount`. -/
def mapAddBalance (m : List (String × BitcoinAddress)) (a : String) (amount : Nat) :
    List (String × BitcoinAddress) :=
  m.map fun p => if p.1 = a then (p.1, { p.2 with balance := p.2.balance + amount }) else p

theorem mapLookup_mapAddBalance (m : List (String × BitcoinAddress))
    (a b : String) (amount : Nat) :
    mapLookup (mapAddBalance m a amount) b =
      if b = a then
        (mapLookup m b).map (fun r => { r with balance := r.balance + amount })
      else mapLookup m b := by
  induction m with
  | nil => by_cases hba : b = a <;> simp [mapAddBalance, mapLookup, hba]
  | cons p rest ih =>
    by_cases hpa : p.1 = a
    · by_cases hpb : p.1 = b
      · have hba : b = a := by rw [← hpb, hpa]
        simp [mapAddBalance, mapLookup, hpa, hpb, hba]
      · have hba : ¬(b = a) → True := fun _ => trivial
        by_cases hba2 : b = a
        · exact absurd (hba2 ▸ hpa : p.1 = b) hpb
        · simp only [mapAddBalance, List.map_cons, if_pos hpa, mapLookup,
            if_neg hpb] at *
          simpa [mapAddBalance, hba2] using ih
    · by_cases hpb : p.1 = b
      · have hba2 : ¬(b = a) := fun hba => hpa (by rw [hpb, hba])
        simp [mapAddBalance, mapLookup, hpa, hpb, hba2]
      · simp only [mapAddBalance, List.map_cons, if_neg hpa, mapLookup,
          if_neg hpb]
        simpa [mapAddBalance] using ih

theorem mapLookup_append_single (m : List (String × BitcoinAddress))
    (a b : String) (r : BitcoinAddress) :
    mapLookup (m ++ [(a, r)]) b =
      match mapLookup m b with
      | some q => some q
      | none => if a = b then some r else none := by
  induction m with
  | nil => simp [mapLookup]
  | cons p rest ih =>
    by_cases hpb : p.1 = b
    · simp [mapLookup, hpb]
    · simp only [List.cons_append, mapLookup, if_neg hpb]
      exact ih

/-! ### UTXO index scan
(`UTXODatabase.get_all_utxos`, source lines 158-207).  The database iteration
is a list of raw (key, value) pairs; the loop body neither raises nor breaks,
so the surrounding `try` is dead and the scan is a fold. -/

/-- The record created on first sighting of an address (source lines 189-201). -/
def newAddressRecord (address pubkey : String) (amount : Nat) : BitcoinAddress :=
  { address := address
    public_key := pubkey
    public_key_compressed := ""
    public_key_uncompressed := ""
    balance := amount
    first_seen_block := 0
    last_activity_block := 0
    tags := []
    is_miner := false
    is_unspent := true
    has_spent := false }

/-- One iteration of the `get_all_utxos` loop. -/
def processUtxo (sha256 ripemd160 : List Nat → List Nat)
    (m : List (String × BitcoinAddress)) (kv : List Nat × List Nat) :
    List (String × BitcoinAddress) :=
  match decode_utxo_key kv.1 with
  | none => m
  | some _ =>
    let av := decode_utxo_value kv.2
    if av.1 = 0 then m
    else
      let ap := extract_address_from_script sha256 ripemd160 av.2
      if ap.1 = "" then m
      else
        match mapLookup m ap.1 with
        | some _ => mapAddBalance m ap.1 av.1
        | none => m ++ [(ap.1, newAddressRecord ap.1 ap.2 av.1)]

/-- `UTXODatabase.get_all_utxos` over the listed database entries. -/
def get_all_utxos (sha256 ripemd160 : List Nat → List Nat)
    (entries : List (List Nat × List Nat)) : List (String × BitcoinAddress) :=
  entries.foldl (processUtxo sha256 ripemd160) []

/-- The amount an individual index entry contributes to the balance of
`addr`: its decoded amount when the key decodes, the amount is nonzero and
the locking script classifies to `addr`; otherwise zero. -/
def entryAmount (sha256 ripemd160 : List Nat → List Nat) (addr : String)
    (kv : List Nat × List Nat) : Nat :=
  match decode_utxo_key kv.1 with
  | none => 0
  | some _ =>
    let av := decode_utxo_value kv.2
    if av.1 = 0 then 0
    else
      let ap := extract_address_from_script sha256 ripemd160 av.2
      if ap.1 = "" then 0
      else if ap.1 = addr then av.1 else 0

/-- Total amount classified to `addr` over the scanned entries. -/
def sumAmounts (sha256 ripemd160 : List Nat → List Nat) (addr : String)
    (entries : List (List Nat × List Nat)) : Nat :=
  (entries.map (entryAmount sha256 ripemd160 addr)).sum

/-! ### Spend-history reconciler
(`FastAddressCollector.collect_addresses`, step 3, source lines 453-466). -/

/-- The per-record finalisation inside the reconciliation loop. -/
def reconcileRecord (address_pubkeys : List (String × String)) (address : String)
    (r : BitcoinAddress) : BitcoinAddress :=
  let r2 :=
    match List.lookup address address_pubkeys with
    | some pk =>
      { r with
        public_key := pk
        public_key_compressed := compress_pubkey pk
        public_key_uncompressed := uncompress_pubkey pk }
    | none => r
  { r2 with has_spent := false }

/-- Step 3 of `FastAddressCollector.collect_addresses`: filter out spent
addresses, finalise the rest. -/
def reconcile (addresses : List (String × BitcoinAddress))
    (spent_addresses : List String) (address_pubkeys : List (String × String)) :
    List (String × BitcoinAddress) :=
  match addresses with
  | [] => []
  | (a, r) :: rest =>
    if a ∈ spent_addresses then reconcile rest spent_addresses address_pubkeys
    else (a, reconcileRecord address_pubkeys a r) ::
      reconcile rest spent_addresses address_pubkeys

/-! ### Blockchain scanner
(`BlockchainScanner`, source lines 209-433).  `scriptElems` abstracts the
external `list(CScript(scriptsig))` element iteration: `none` models both a
parse exception and a last element that is an opcode rather than pushed bytes
(in Python `len()` then raises; either way the enclosing `try` yields the
empty string).  `sha256`/`ripemd160` are the `hashlib` primitives. -/

/-- `BlockchainScanner.extract_pubkey_from_scriptsig`. -/
def extract_pubkey_from_scriptsig (scriptElems : List Nat → Option (List (List Nat)))
    (scriptsig : List Nat) : String :=
  match scriptElems scriptsig with
  | none => ""
  | some elements =>
    if 2 ≤ elements.length then
      let cand := elements.getLastD []
      if cand.length = 33 ∧ (cand.getD 0 0 = 2 ∨ cand.getD 0 0 = 3) then
        hexEncodeBytes cand
      else if cand.length = 65 ∧ cand.getD 0 0 = 4 then hexEncodeBytes cand
      else ""
    else ""

/-- `BlockchainScanner.pubkey_to_address`: `bytes.fromhex` failure is caught
and yields the empty string. -/
def pubkey_to_address (sha256 ripemd160 : List Nat → List Nat)
    (pubkey_hex : String) : String :=
  match hexDecodeStr pubkey_hex with
  | none => ""
  | some bs => addressFromHash160 sha256 (ripemd160 (sha256 bs))

/-- Python set insertion (`spent_addrs.add`). -/
def setAdd (s : List String) (a : String) : List String :=
  if a ∈ s then s else s ++ [a]

/-- Python dict assignment (`addr_pubkeys[address] = pubkey`). -/
def dictSet (m : List (String × String)) (a pk : String) : List (String × String) :=
  if (List.lookup a m).isSome then
    m.map fun p => if p.1 = a then (a, pk) else p
  else m ++ [(a, pk)]

/-- The accumulated scan state: (spent-address set, address → pubkey map). -/
def ScanAcc : Type := List String × List (String × String)

/-- The non-coinbase input loop of `parse_transaction` (source lines 311-336):
walks each input and classifies its unlocking script. -/
def parseInputs (scriptElems : List Nat → Option (List (List Nat)))
    (sha256 ripemd160 : List Nat → List Nat) (data : List Nat) :
    Nat → Nat → ScanAcc → Nat × ScanAcc
  | 0, pos, acc => (pos, acc)
  | n + 1, pos, acc =>
    let pos1 := pos + 32 + 4
    let v := read_varint data pos1
    let pos2 := pos1 + v.2
    let scriptsig := listSlice data pos2 (pos2 + v.1)
    let pos3 := pos2 + v.1
    let pubkey := extract_pubkey_from_scriptsig scriptElems scriptsig
    let acc2 :=
      if pubkey ≠ "" then
        let address := pubkey_to_address sha256 ripemd160 pubkey
        if address ≠ "" then (setAdd acc.1 address, dictSet acc.2 address pubkey)
        else acc
      else acc
    parseInputs scriptElems sha256 ripemd160 data n (pos3 + 4) acc2

/-- The coinbase input loop (source lines 338-344): structural walk only. -/
def skipInputs (data : List Nat) : Nat → Nat → Nat
  | 0, pos => pos
  | n + 1, pos =>
    let pos1 := pos + 32 + 4
    let v := read_varint data pos1
    skipInputs data n (pos1 + v.2 + v.1 + 4)

/-- The output loop (source lines 351-354): structural walk only. -/
def skipOutputs (data : List Nat) : Nat → Nat → Nat
  | 0, pos => pos
  | n + 1, pos =>
    let pos1 := pos + 8
    let v := read_varint data pos1
    skipOutputs data n (pos1 + v.2 + v.1)

/-- `BlockchainScanner.parse_transaction`.  No statement in its `try` block
can raise, so the `except` path returning `None` is dead and the translation
returns the final position directly. -/
def parse_transaction (scriptElems : List Nat → Option (List (List Nat)))
    (sha256 ripemd160 : List Nat → List Nat) (data : List Nat) (pos : Nat)
    (acc : ScanAcc) (is_coinbase : Bool) : Nat × ScanAcc :=
  let pos1 := pos + 4
  let v := read_varint data pos1
  let pos2 := pos1 + v.2
  let r :=
    if is_coinbase then (skipInputs data v.1 pos2, acc)
    else parseInputs scriptElems sha256 ripemd160 data v.1 pos2 acc
  let w := read_varint data r.1
  let pos4 := r.1 + w.2
  let pos5 := skipOutputs data w.1 pos4
  (pos5 + 4, r.2)

/-- The transaction loop of `parse_block_data` (source lines 289-292); the
first transaction of a block is the coinbase. -/
def parseTxLoop (scriptElems : List Nat → Option (List (List Nat)))
    (sha256 ripemd160 : List Nat → List Nat) (data : List Nat) :
    Nat → Nat → Bool → ScanAcc → ScanAcc
  | 0, _, _, acc => acc
  | n + 1, pos, first, acc =>
    let r := parse_transaction scriptElems sha256 ripemd160 data pos acc first
    parseTxLoop scriptElems sha256 ripemd160 data n r.1 false r.2

/-- `BlockchainScanner.parse_block_data`: skip the 80-byte header, read the
CompactSize transaction count, walk the transactions. -/
def parse_block_data (scriptElems : List Nat → Option (List (List Nat)))
    (sha256 ripemd160 : List Nat → List Nat) (block_data : List Nat)
    (acc : ScanAcc) : ScanAcc :=
  let v := read_varint block_data 80
  parseTxLoop scriptElems sha256 ripemd160 block_data v.1 (80 + v.2) true acc

/-- The Bitcoin mainnet magic bytes (source line 257). -/
def magicBytes : List Nat := [0xf9, 0xbe, 0xb4, 0xd9]

/-- The `max_blocks` truthiness test of source line 252: Python `None` and
`0` are both falsy. -/
def maxBlocksReached (max_blocks : Option Nat) (blocks_processed : Nat) : Prop :=
  match max_blocks with
  | none => False
  | some m => m ≠ 0 ∧ m ≤ blocks_processed

instance (mb : Option Nat) (bp : Nat) : Decidable (maxBlocksReached mb bp) := by
  unfold maxBlocksReached
  match mb with
  | none => exact inferInstance
  | some m => exact inferInstance

/-- The frame loop of `parse_block_file` (source lines 251-271), structured on
fuel so that concrete runs reduce; each iteration consumes at least 8 bytes,
so `data.length + 1` fuel always suffices.  A short `f.read(4)` for the frame
length makes `struct.unpack` raise; the enclosing `try` catches it and the
accumulated results are returned, which coincides with the `break` paths. -/
def frameLoop (scriptElems : List Nat → Option (List (List Nat)))
    (sha256 ripemd160 : List Nat → List Nat) (max_blocks : Option Nat) :
    Nat → List Nat → Nat → ScanAcc → ScanAcc
  | 0, _, _, acc => acc
  | fuel + 1, data, blocks_processed, acc =>
    if maxBlocksReached max_blocks blocks_processed then acc
    else
      let magic := data.take 4
      if magic = [] ∨ magic ≠ magicBytes then acc
      else
        let rest := data.drop 4
        if rest.length < 4 then acc
        else
          let block_size := leBytesToNat (rest.take 4)
          let rest2 := rest.drop 4
          let block_data := rest2.take block_size
          if block_data.length ≠ block_size then acc
          else
            frameLoop scriptElems sha256 ripemd160 max_blocks fuel
              (rest2.drop block_size) (blocks_processed + 1)
              (parse_block_data scriptElems sha256 ripemd160 block_data acc)

/-- `BlockchainScanner.parse_block_file` on the file's byte contents. -/
def parse_block_file (scriptElems : List Nat → Option (List (List Nat)))
    (sha256 ripemd160 : List Nat → List Nat) (data : List Nat)
    (max_blocks : Option Nat) : ScanAcc :=
  frameLoop scriptElems sha256 ripemd160 max_blocks (data.length + 1) data 0 ([], [])

/-- A byte string that is a concatenation of complete frames: magic, 4-byte
little-endian length, payload of exactly that length. -/
inductive FrameSeq : List Nat → Prop
  | nil : FrameSeq []
  | cons (L : Nat) (payload rest : List Nat) (hL : L < 2 ^ 32)
      (hp : payload.length = L) (h : FrameSeq rest) :
      FrameSeq (magicBytes ++ natToBytesLE 4 L ++ payload ++ rest)

/-! ### Block-file discovery
(`BlockchainScanner.scan_spending_history`, source lines 405-412).  The
filename formatting is injective in the index, so the directory is modelled
by the predicate telling which indices exist. -/

/-- The `for i in range(1000)` discovery loop, started at index `start` with
`n` iterations left: collects existing file indices, stops at the first
missing one. -/
def discoverAux (fileExists : Nat → Bool) : Nat → Nat → List Nat
  | 0, _ => []
  | n + 1, i => if fileExists i then i :: discoverAux fileExists n (i + 1) else []

/-- The block-file indices collected by `scan_spending_history`. -/
def discoverBlockFiles (fileExists : Nat → Bool) : List Nat :=
  discoverAux fileExists 1000 0

/-! ## Claim theorems -/

theorem valueVarintLoop_all_cont (l : List Nat) :
    ∀ acc shift, (∀ b ∈ l, b &&& 0x80 ≠ 0) →
      (valueVarintLoop l acc shift).2 = l.length := by
  induction l with
  | nil => intro acc shift _; rfl
  | cons b rest ih =>
    intro acc shift h
    have hb : b &&& 0x80 ≠ 0 := h b (by simp)
    rw [valueVarintLoop, if_neg hb]
    simp only [List.length_cons]
    rw [ih _ _ (fun c hc => h c (by simp [hc]))]

/-- C4: the CompactSize decoder returns (first byte, 1) below 0xfd; the next
2/4/8 bytes little-endian with 3/5/9 consumed for prefixes 0xfd/0xfe/0xff;
and (0, 0) whenever fewer bytes remain than the form requires, including a
position at or past the end; decoding fd 00 01 gives (256, 3) and
fe 00 00 01 00 gives (65536, 5). -/
theorem read_varint_matches_compactsize (data : List Nat) (pos : Nat) :
    (pos < data.length → data.getD pos 0 < 0xfd →
      read_varint data pos = (data.getD pos 0, 1)) ∧
    (data.getD pos 0 = 0xfd → pos + 3 ≤ data.length →
      read_varint data pos = (leBytesToNat (listSlice data (pos + 1) (pos + 3)), 3)) ∧
    (data.getD pos 0 = 0xfe → pos + 5 ≤ data.length →
      read_varint data pos = (leBytesToNat (listSlice data (pos + 1) (pos + 5)), 5)) ∧
    (data.getD pos 0 = 0xff → pos + 9 ≤ data.length →
      read_varint data pos = (leBytesToNat (listSlice data (pos + 1) (pos + 9)), 9)) ∧
    (data.length ≤ pos → read_varint data pos = (0, 0)) ∧
    (data.getD pos 0 = 0xfd → data.length < pos + 3 → read_varint data pos = (0, 0)) ∧
    (data.getD pos 0 = 0xfe → data.length < pos + 5 → read_varint data pos = (0, 0)) ∧
    (data.getD pos 0 = 0xff → data.length < pos + 9 → read_varint data pos = (0, 0)) ∧
    read_varint [0xfd, 0x00, 0x01] 0 = (256, 3) ∧
    read_varint [0xfe, 0x00, 0x00, 0x01, 0x00] 0 = (65536, 5) := by
  refine ⟨?_, ?_, ?_, ?_, ?_, ?_, ?_, ?_, by decide, by decide⟩
  · intro h1 h2
    rw [read_varint, if_neg (by omega)]
    dsimp only
    rw [if_pos h2]
  · intro hfd hle
    rw [read_varint, if_neg (by omega)]
    dsimp only
    rw [hfd, if_neg (by decide), if_pos rfl, if_neg (by omega)]
  · intro hfe hle
    rw [read_varint, if_neg (by omega)]
    dsimp only
    rw [hfe, if_neg (by decide), if_neg (by decide), if_pos rfl, if_neg (by omega)]
  · intro hff hle
    rw [read_varint, if_neg (by omega)]
    dsimp only
    rw [hff, if_neg (by decide), if_neg (by decide), if_neg (by decide),
      if_neg (by omega)]
  · intro h
    rw [read_varint, if_pos h]
  · intro hfd h3
    by_cases hlen : data.length ≤ pos
    · rw [read_varint, if_pos hlen]
    · rw [read_varint, if_neg hlen]
      dsimp only
      rw [hfd, if_neg (by decide), if_pos rfl, if_pos h3]
  · intro hfe h5
    by_cases hlen : data.length ≤ pos
    · rw [read_varint, if_pos hlen]
    · rw [read_varint, if_neg hlen]
      dsimp only
      rw [hfe, if_neg (by decide), if_neg (by decide), if_pos rfl, if_pos h5]
  · intro hff h9
    by_cases hlen : data.length ≤ pos
    · rw [read_varint, if_pos hlen]
    · rw [read_varint, if_neg hlen]
      dsimp only
      rw [hff, if_neg (by decide), if_neg (by decide), if_neg (by decide),
        if_pos h9]

theorem read_varint_matches_compactsize_witness :
    read_varint [0xfd, 0x00, 0x01] 0 =
      (leBytesToNat (listSlice [0xfd, 0x00, 0x01] 1 3), 3) :=
  (read_varint_matches_compactsize [0xfd, 0x00, 0x01] 0).2.1 (by decide) (by decide)

theorem discoverAux_mem_lt (fileExists : Nat → Bool) :
    ∀ n i j, j ∈ discoverAux fileExists n i → j < i + n := by
  intro n
  induction n with
  | zero => intro i j hj; simp [discoverAux] at hj
  | succ k ih =>
    intro i j hj
    rw [discoverAux] at hj
    by_cases hex : fileExists i
    · rw [if_pos hex] at hj
      rcases List.mem_cons.mp hj with hj | hj
      · omega
      · have := ih (i + 1) j hj
        omega
    · rw [if_neg hex] at hj
      simp at hj

theorem discoverAux_all_true :
    ∀ n i, discoverAux (fun _ => true) n i = List.range' i n := by
  intro n
  induction n with
  | zero => intro i; rfl
  | succ k ih =>
    intro i
    rw [discoverAux, if_pos rfl, ih, List.range'_succ]

/-- C10: the block-file discovery loop considers only the indices 0 through
999: every index it collects is below 1000, and when every file exists it
collects exactly the 1000 indices 0..999 and stops there instead of at the
first missing index. -/
theorem discover_block_files_capped :
    (∀ fileExists : Nat → Bool, ∀ i, i ∈ discoverBlockFiles fileExists → i < 1000) ∧
    discoverBlockFiles (fun _ => true) = List.range 1000 := by
  constructor
  · intro fileExists i hi
    have := discoverAux_mem_lt fileExists 1000 0 i hi
    omega
  · rw [discoverBlockFiles, discoverAux_all_true, List.range_eq_range']

theorem discover_block_files_capped_witness : (0 : Nat) < 1000 :=
  discover_block_files_capped.1 (fun _ => true) 0
    (by rw [discover_block_files_capped.2]; decide)

/-- C8 counterexample: a key whose trailing continuation-bit varint is
truncated (the final byte still has its high bit set) is decoded
successfully, and a value consisting of the single truncated varint byte 0x85
decodes to amount 5 with an empty script — no decode failure is signalled for
either. -/
theorem truncated_varint_counterexample :
    decode_utxo_key (0x43 :: (List.replicate 32 0 ++ [0x80])) ≠ none ∧
    decode_utxo_value [0x85] = (5, []) := by
  constructor
  · decide
  · decide

/-- C8 amended: on a key or value whose trailing continuation-bit varint is
truncated, the decoders do not signal failure (and do not crash): the key
decoder returns the txid together with the partially accumulated vout, and
the value decoder consumes the whole input, returning the partially
accumulated amount with an empty script. -/
theorem truncated_varint_no_failure (key value : List Nat)
    (hklen : 33 ≤ key.length) (hktag : key.getD 0 0 = 0x43)
    (hktail : ∀ b ∈ key.drop 33, b &&& 0x80 ≠ 0)
    (hvne : value ≠ []) (hvall : ∀ b ∈ value, b &&& 0x80 ≠ 0) :
    decode_utxo_key key =
      some (listSlice key 1 33, contVarintLoop (key.drop 33) 0 0) ∧
    decode_utxo_value value = ((valueVarintLoop value 0 0).1, []) := by
  constructor
  · rw [decode_utxo_key, if_neg (by omega), if_neg (fun hne => hne hktag)]
  · have hlen : 1 ≤ value.length := by
      cases value with
      | nil => exact absurd rfl hvne
      | cons b rest => simp
    rw [decode_utxo_value, if_neg (by omega)]
    dsimp only
    have hc := valueVarintLoop_all_cont value 0 0 hvall
    rw [hc, List.drop_length]

theorem truncated_varint_no_failure_witness :
    decode_utxo_key (0x43 :: (List.replicate 32 0 ++ [0x80])) =
      some (listSlice (0x43 :: (List.replicate 32 0 ++ [0x80])) 1 33,
        contVarintLoop ((0x43 :: (List.replicate 32 0 ++ [0x80])).drop 33) 0 0) ∧
    decode_utxo_value [0x85] = ((valueVarintLoop [0x85] 0 0).1, []) :=
  truncated_varint_no_failure (0x43 :: (List.replicate 32 0 ++ [0x80])) [0x85]
    (by decide) (by decide) (by decide) (by decide) (by decide)

/-- C6 counterexample: for the hex string ab — one decoded byte, so neither
valid public-key shape — the compress routine returns its input unchanged
rather than the empty string. -/
theorem compress_invalid_counterexample : compress_pubkey "ab" ≠ "" := by
  decide

/-- C6 amended: on any input hex string whose decoded byte length or leading
prefix byte is not one of the two valid public-key shapes (or that does not
decode as hex at all), the decompress routine returns the empty string and
the compress routine returns its input unchanged; neither raises. -/
theorem invalid_pubkey_shape_handling (s : String) :
    (hexDecodeStr s = none → compress_pubkey s = s ∧ uncompress_pubkey s = "") ∧
    (∀ bs, hexDecodeStr s = some bs →
      ¬(bs.length = 33 ∧ (bs.getD 0 0 = 2 ∨ bs.getD 0 0 = 3)) →
      ¬(bs.length = 65 ∧ bs.getD 0 0 = 4) →
      compress_pubkey s = s ∧ uncompress_pubkey s = "") := by
  constructor
  · intro hnone
    have hse : s ≠ "" := by
      intro h
      rw [h] at hnone
      exact Option.noConfusion hnone
    rw [compress_pubkey, if_neg hse, uncompress_pubkey, if_neg hse, hnone]
    exact ⟨rfl, rfl⟩
  · intro bs hsome h33 h65
    by_cases hse : s = ""
    · subst hse
      exact ⟨rfl, rfl⟩
    · rw [compress_pubkey, if_neg hse, uncompress_pubkey, if_neg hse, hsome]
      constructor
      · dsimp only
        rw [if_neg h65]
      · dsimp only
        rw [if_neg h65, if_neg h33]

theorem invalid_pubkey_shape_handling_witness :
    compress_pubkey "ab" = "ab" ∧ uncompress_pubkey "ab" = "" :=
  (invalid_pubkey_shape_handling "ab").2 [0xab] (by decide) (by decide) (by decide)

/-! ### Claims about the key-format converter. -/

/-- The y coordinate prescribed by the specification's decompression formula:
the candidate root `ySquared ^ ((p + 1) / 4) mod p` of
`ySquared = (x ^ 3 + 7) mod p`, replaced by `p - y` when its parity does not
match the prefix (0x02 requires even, 0x03 requires odd).  Stated with plain
`^` and `%`; compared below against the code's `uncompressCore`. -/
def uncompressY (b0 x : Nat) : Nat :=
  let y0 := ((x ^ 3 + 7) % secp_p) ^ ((secp_p + 1) / 4) % secp_p
  if b0 = 2 then (if y0 % 2 = 0 then y0 else secp_p - y0)
  else (if y0 % 2 = 0 then secp_p - y0 else y0)

theorem uncompressCore_spec (b0 : Nat) (xbytes : List Nat)
    (hb : b0 = 2 ∨ b0 = 3) (hlen : xbytes.length = 32) :
    uncompressCore (b0 :: xbytes) =
      hexEncodeBytes (4 :: (natToBytes 32 (bytesToNat xbytes) ++
        natToBytes 32 (uncompressY b0 (bytesToNat xbytes)))) := by
  have hsl : listSlice (b0 :: xbytes) 1 33 = xbytes := by
    simp only [listSlice, List.drop_succ_cons, List.drop_zero]
    exact List.take_of_length_le (by omega)
  rw [uncompressCore]
  rw [hsl, powMod_eq, powMod_eq, Nat.mod_add_mod, uncompressY]
  have hgd : (b0 :: xbytes).getD 0 0 = b0 := rfl
  rw [hgd]
  rcases hb with rfl | rfl <;> rfl

theorem uncompress_valid33 (b0 : Nat) (xbytes : List Nat)
    (hb : b0 = 2 ∨ b0 = 3) (hlen : xbytes.length = 32)
    (hall : ∀ b ∈ xbytes, b < 256) :
    uncompress_pubkey (hexEncodeBytes (b0 :: xbytes)) =
      hexEncodeBytes (4 :: (natToBytes 32 (bytesToNat xbytes) ++
        natToBytes 32 (uncompressY b0 (bytesToNat xbytes)))) := by
  have hb256 : b0 < 256 := by rcases hb with rfl | rfl <;> decide
  have hall2 : ∀ b ∈ b0 :: xbytes, b < 256 := by
    intro b hbm
    rcases List.mem_cons.mp hbm with rfl | hbm
    · exact hb256
    · exact hall b hbm
  have hL : (b0 :: xbytes).length = 33 := by simp [hlen]
  rw [uncompress_pubkey, if_neg (hexEncodeBytes_ne_empty _ _),
    hexDecodeStr_hexEncodeBytes _ hall2]
  dsimp only
  rw [if_neg (by simp [hL]), if_pos ⟨hL, hb⟩]
  exact uncompressCore_spec b0 xbytes hb hlen

/-- C2: decompression of every 33-byte input with prefix 0x02/0x03 yields
0x04 followed by the 32-byte big-endian x and the 32-byte big-endian y with
y as prescribed by the curve formula (`uncompressY`); every 65-byte input
with prefix 0x04 is returned unchanged; and the generator-point compressed
key decompresses to the expected 130-hex-character uncompressed key. -/
theorem uncompress_pubkey_spec :
    (∀ b0 xbytes, (b0 = 2 ∨ b0 = 3) → xbytes.length = 32 →
      (∀ b ∈ xbytes, b < 256) →
      uncompress_pubkey (hexEncodeBytes (b0 :: xbytes)) =
        hexEncodeBytes (4 :: (natToBytes 32 (bytesToNat xbytes) ++
          natToBytes 32 (uncompressY b0 (bytesToNat xbytes))))) ∧
    (∀ bs : List Nat, bs.length = 65 → bs.getD 0 0 = 4 → (∀ b ∈ bs, b < 256) →
      uncompress_pubkey (hexEncodeBytes bs) = hexEncodeBytes bs) ∧
    uncompress_pubkey "0279be667ef9dcbbac55a06295ce870b07029bfcdb2dce28d959f2815b16f81798" =
      "0479be667ef9dcbbac55a06295ce870b07029bfcdb2dce28d959f2815b16f81798483ada7726a3c4655da4fbfc0e1108a8fd17b448a68554199c47d08ffb10d4b8" := by
  refine ⟨uncompress_valid33, ?_, by decide⟩
  intro bs hlen hgd hall
  have hne : hexEncodeBytes bs ≠ "" := by
    cases bs with
    | nil => simp at hlen
    | cons b rest => exact hexEncodeBytes_ne_empty b rest
  rw [uncompress_pubkey, if_neg hne, hexDecodeStr_hexEncodeBytes _ hall]
  dsimp only
  rw [if_pos ⟨hlen, hgd⟩]

theorem uncompress_pubkey_spec_witness :
    uncompress_pubkey (hexEncodeBytes (2 :: List.replicate 32 0)) =
      hexEncodeBytes (4 :: (natToBytes 32 (bytesToNat (List.replicate 32 0)) ++
        natToBytes 32 (uncompressY 2 (bytesToNat (List.replicate 32 0))))) :=
  uncompress_pubkey_spec.1 2 (List.replicate 32 0) (Or.inl rfl) (by decide)
    (by decide)

theorem uncompressY_two_even (x : Nat) : uncompressY 2 x % 2 = 0 := by
  have hp : secp_p % 2 = 1 := by decide
  have hy0 : ((x ^ 3 + 7) % secp_p) ^ ((secp_p + 1) / 4) % secp_p < secp_p :=
    Nat.mod_lt _ (by decide)
  rw [uncompressY]
  split
  · split
    · omega
    · omega
  · omega

theorem uncompressY_three_odd (x : Nat) : uncompressY 3 x % 2 = 1 := by
  have hp : secp_p % 2 = 1 := by decide
  have hy0 : ((x ^ 3 + 7) % secp_p) ^ ((secp_p + 1) / 4) % secp_p < secp_p :=
    Nat.mod_lt _ (by decide)
  rw [uncompressY]
  split
  · omega
  · split
    · omega
    · omega

theorem uncompressY_lt (b0 x : Nat) : uncompressY b0 x < 256 ^ 32 := by
  have hplt : secp_p < 256 ^ 32 := by decide
  have hy0 : ((x ^ 3 + 7) % secp_p) ^ ((secp_p + 1) / 4) % secp_p < secp_p :=
    Nat.mod_lt _ (by decide)
  rw [uncompressY]
  split
  · split
    · omega
    · omega
  · split
    · omega
    · omega

/-- C3 counterexample: the uppercase spelling of the generator-point
compressed key is a hex string encoding 33 bytes with first byte 0x02 — a
syntactically valid compressed public key — yet compressing its
decompression returns the lowercase spelling, not the input. -/
theorem compress_uncompress_counterexample :
    (hexDecodeStr "0279BE667EF9DCBBAC55A06295CE870B07029BFCDB2DCE28D959F2815B16F81798").map
        (fun bs => (bs.length, bs.getD 0 0)) = some (33, 2) ∧
    compress_pubkey (uncompress_pubkey
        "0279BE667EF9DCBBAC55A06295CE870B07029BFCDB2DCE28D959F2815B16F81798") ≠
      "0279BE667EF9DCBBAC55A06295CE870B07029BFCDB2DCE28D959F2815B16F81798" := by
  constructor
  · decide
  · decide

/-- C3 amended: for every syntactically valid compressed public key written
in canonical lowercase hex (the image of hex encoding a 33-byte string with
first byte 0x02 or 0x03), compressing the result of decompressing the key
gives the key back. -/
theorem compress_uncompress_roundtrip (b0 : Nat) (xbytes : List Nat)
    (hb : b0 = 2 ∨ b0 = 3) (hlen : xbytes.length = 32)
    (hall : ∀ b ∈ xbytes, b < 256) :
    compress_pubkey (uncompress_pubkey (hexEncodeBytes (b0 :: xbytes))) =
      hexEncodeBytes (b0 :: xbytes) := by
  rw [uncompress_valid33 b0 xbytes hb hlen hall]
  have hAlen : (natToBytes 32 (bytesToNat xbytes)).length = 32 := natToBytes_length _ _
  have hBlen : (natToBytes 32 (uncompressY b0 (bytesToNat xbytes))).length = 32 :=
    natToBytes_length _ _
  have hallu : ∀ b ∈ 4 :: (natToBytes 32 (bytesToNat xbytes) ++
      natToBytes 32 (uncompressY b0 (bytesToNat xbytes))), b < 256 := by
    intro b hbm
    rcases List.mem_cons.mp hbm with rfl | hbm
    · decide
    · rcases List.mem_append.mp hbm with hbm | hbm
      · exact natToBytes_lt _ _ b hbm
      · exact natToBytes_lt _ _ b hbm
  have hL : (4 :: (natToBytes 32 (bytesToNat xbytes) ++
      natToBytes 32 (uncompressY b0 (bytesToNat xbytes)))).length = 65 := by
    simp [hAlen, hBlen]
  rw [compress_pubkey, if_neg (hexEncodeBytes_ne_empty _ _),
    hexDecodeStr_hexEncodeBytes _ hallu]
  dsimp only
  rw [if_pos ⟨hL, rfl⟩]
  have hslx : listSlice (4 :: (natToBytes 32 (bytesToNat xbytes) ++
      natToBytes 32 (uncompressY b0 (bytesToNat xbytes)))) 1 33 =
      natToBytes 32 (bytesToNat xbytes) := by
    rw [listSlice]
    simp only [List.drop_succ_cons, List.drop_zero]
    rw [show (33 - 1 : Nat) = (natToBytes 32 (bytesToNat xbytes)).length from by
      rw [hAlen]]
    exact List.take_left _ _
  have hsly : listSlice (4 :: (natToBytes 32 (bytesToNat xbytes) ++
      natToBytes 32 (uncompressY b0 (bytesToNat xbytes)))) 33 65 =
      natToBytes 32 (uncompressY b0 (bytesToNat xbytes)) := by
    rw [listSlice]
    rw [show (33 : Nat) = (natToBytes 32 (bytesToNat xbytes)).length + 1 from by
      rw [hAlen], List.drop_succ_cons, List.drop_left]
    exact List.take_of_length_le (by rw [hBlen]; omega)
  rw [hslx, hsly]
  have hyint : bytesToNat (natToBytes 32 (uncompressY b0 (bytesToNat xbytes))) =
      uncompressY b0 (bytesToNat xbytes) := by
    rw [bytesToNat_natToBytes_mod]
    exact Nat.mod_eq_of_lt (uncompressY_lt _ _)
  rw [hyint]
  have hAx : natToBytes 32 (bytesToNat xbytes) = xbytes := by
    rw [← hlen]
    exact natToBytes_bytesToNat xbytes hall
  rw [hAx]
  rcases hb with rfl | rfl
  · rw [if_pos (uncompressY_two_even (bytesToNat xbytes))]
  · rw [if_neg (by rw [uncompressY_three_odd (bytesToNat xbytes)]; omega)]

theorem compress_uncompress_roundtrip_witness :
    compress_pubkey (uncompress_pubkey (hexEncodeBytes (2 :: List.replicate 32 0))) =
      hexEncodeBytes (2 :: List.replicate 32 0) :=
  compress_uncompress_roundtrip 2 (List.replicate 32 0) (Or.inl rfl) (by decide)
    (by decide)

/-! ### Claims about the script classifier. -/

theorem hexEncodeBytes_ne_empty_of_ne_nil (l : List Nat) (h : l ≠ []) :
    hexEncodeBytes l ≠ "" := by
  cases l with
  | nil => exact absurd rfl h
  | cons b rest => exact hexEncodeBytes_ne_empty b rest

theorem addressFromHash160_ne_empty (sha256 : List Nat → List Nat)
    (h160 : List Nat) : addressFromHash160 sha256 h160 ≠ "" := by
  rw [addressFromHash160, List.cons_append]
  exact b58encode_zero_head_ne_empty _

theorem extract_p2pk_eq (sha256 ripemd160 : List Nat → List Nat)
    (script : List Nat) (hs0 : script.getD 0 0 = 33 ∨ script.getD 0 0 = 65)
    (hlen2 : script.length = script.getD 0 0 + 2)
    (hcs : script.getD (script.length - 1) 0 = OP_CHECKSIG) :
    extract_address_from_script sha256 ripemd160 script =
      (addressFromHash160 sha256
        (ripemd160 (sha256 (listSlice script 1 (1 + script.getD 0 0)))),
       hexEncodeBytes (listSlice script 1 (1 + script.getD 0 0))) := by
  have hlen : script.length = 35 ∨ script.length = 67 := by
    rcases hs0 with h | h <;> omega
  rw [extract_address_from_script, if_neg (by omega),
    if_neg (by rintro ⟨h25, _⟩; omega), if_pos ⟨by omega, hcs, hs0⟩,
    if_pos hlen2]

theorem listSlice_pushed_length (script : List Nat)
    (hlen2 : script.length = script.getD 0 0 + 2) :
    (listSlice script 1 (1 + script.getD 0 0)).length = script.getD 0 0 := by
  simp only [listSlice, List.length_take, List.length_drop]
  omega

/-- C7 counterexample: a 35-byte locking script pushing 33 bytes whose first
byte is 0x07 — not a valid public-key prefix — followed by CHECKSIG is still
classified as a pay-to-public-key match: the classifier returns the pushed
bytes hex-encoded as the public key together with a nonempty address, instead
of the no-match result the claim requires.  (Hash primitives instantiated
with constant functions; the returned pubkey component does not depend on
them.) -/
theorem classifier_prefix_counterexample :
    (extract_address_from_script (fun _ => List.replicate 32 0)
        (fun _ => List.replicate 20 0)
        (33 :: ((7 :: List.replicate 32 0) ++ [0xac]))).2 =
      hexEncodeBytes (7 :: List.replicate 32 0) ∧
    (extract_address_from_script (fun _ => List.replicate 32 0)
        (fun _ => List.replicate 20 0)
        (33 :: ((7 :: List.replicate 32 0) ++ [0xac]))).1 ≠ "" := by
  constructor
  · decide
  · decide

/-- C7 amended: the classifier returns a pay-to-public-key match (nonempty
hex-encoded pushed bytes as the public key) exactly when the locking script
is a single push of 33 or 65 bytes immediately followed by CHECKSIG; the
prefix byte of the pushed bytes is not validated.  When the structural
conditions hold the public key is the pushed bytes hex-encoded and the
derived address is nonempty, for every choice of hash primitives. -/
theorem classifier_p2pk_structure (sha256 ripemd160 : List Nat → List Nat)
    (script : List Nat) :
    ((extract_address_from_script sha256 ripemd160 script).2 ≠ "" ↔
      ((script.getD 0 0 = 33 ∨ script.getD 0 0 = 65) ∧
        script.length = script.getD 0 0 + 2 ∧
        script.getD (script.length - 1) 0 = OP_CHECKSIG)) ∧
    ((script.getD 0 0 = 33 ∨ script.getD 0 0 = 65) →
      script.length = script.getD 0 0 + 2 →
      script.getD (script.length - 1) 0 = OP_CHECKSIG →
      (extract_address_from_script sha256 ripemd160 script).2 =
        hexEncodeBytes (listSlice script 1 (1 + script.getD 0 0)) ∧
      (extract_address_from_script sha256 ripemd160 script).1 ≠ "") := by
  constructor
  · constructor
    · intro h2ne
      by_cases h0 : script.length = 0
      · rw [extract_address_from_script, if_pos h0] at h2ne
        exact absurd rfl h2ne
      rw [extract_address_from_script, if_neg h0] at h2ne
      by_cases hpkh : script.length = 25 ∧ script.getD 0 0 = OP_DUP ∧
          script.getD 1 0 = OP_HASH160 ∧ script.getD 2 0 = 20 ∧
          script.getD 23 0 = OP_EQUALVERIFY ∧ script.getD 24 0 = OP_CHECKSIG
      · rw [if_pos hpkh] at h2ne
        exact absurd rfl h2ne
      rw [if_neg hpkh] at h2ne
      by_cases hp2pk : 35 ≤ script.length ∧
          script.getD (script.length - 1) 0 = OP_CHECKSIG ∧
          (script.getD 0 0 = 33 ∨ script.getD 0 0 = 65)
      · rw [if_pos hp2pk] at h2ne
        by_cases hinner : script.length = script.getD 0 0 + 2
        · exact ⟨hp2pk.2.2, hinner, hp2pk.2.1⟩
        · rw [if_neg hinner] at h2ne
          exact absurd rfl h2ne
      · rw [if_neg hp2pk] at h2ne
        exact absurd rfl h2ne
    · rintro ⟨hs0, hlen2, hcs⟩
      rw [extract_p2pk_eq sha256 ripemd160 script hs0 hlen2 hcs]
      apply hexEncodeBytes_ne_empty_of_ne_nil
      intro hnil
      have hplen := listSlice_pushed_length script hlen2
      rw [hnil] at hplen
      simp only [List.length_nil] at hplen
      rcases hs0 with h | h <;> omega
  · intro hs0 hlen2 hcs
    rw [extract_p2pk_eq sha256 ripemd160 script hs0 hlen2 hcs]
    exact ⟨rfl, addressFromHash160_ne_empty _ _⟩

theorem classifier_p2pk_structure_witness :
    (extract_address_from_script (fun _ => List.replicate 32 0)
        (fun _ => List.replicate 20 0)
        (33 :: ((7 :: List.replicate 32 0) ++ [0xac]))).2 =
      hexEncodeBytes (listSlice (33 :: ((7 :: List.replicate 32 0) ++ [0xac])) 1
        (1 + (33 :: ((7 :: List.replicate 32 0) ++ [0xac])).getD 0 0)) ∧
    (extract_address_from_script (fun _ => List.replicate 32 0)
        (fun _ => List.replicate 20 0)
        (33 :: ((7 :: List.replicate 32 0) ++ [0xac]))).1 ≠ "" :=
  (classifier_p2pk_structure (fun _ => List.replicate 32 0)
      (fun _ => List.replicate 20 0)
      (33 :: ((7 :: List.replicate 32 0) ++ [0xac]))).2
    (by decide) (by decide) (by decide)

/-! ### Claims about the UTXO index scan. -/

theorem sumAmounts_cons (sha256 ripemd160 : List Nat → List Nat) (addr : String)
    (e : List Nat × List Nat) (es : List (List Nat × List Nat)) :
    sumAmounts sha256 ripemd160 addr (e :: es) =
      entryAmount sha256 ripemd160 addr e + sumAmounts sha256 ripemd160 addr es := by
  simp [sumAmounts]

theorem processUtxo_lookup_zero (sha256 ripemd160 : List Nat → List Nat)
    (m : List (String × BitcoinAddress)) (e : List Nat × List Nat) (addr : String)
    (hE : entryAmount sha256 ripemd160 addr e = 0) :
    mapLookup (processUtxo sha256 ripemd160 m e) addr = mapLookup m addr := by
  rcases hk : decode_utxo_key e.1 with _ | tv
  · rw [processUtxo, hk]
  · rw [processUtxo, hk]
    rw [entryAmount, hk] at hE
    dsimp only at hE ⊢
    by_cases hz : (decode_utxo_value e.2).1 = 0
    · rw [if_pos hz]
    · rw [if_neg hz] at hE ⊢
      by_cases ha : (extract_address_from_script sha256 ripemd160
          (decode_utxo_value e.2).2).1 = ""
      · rw [if_pos ha]
      · rw [if_neg ha] at hE ⊢
        have hne : (extract_address_from_script sha256 ripemd160
            (decode_utxo_value e.2).2).1 ≠ addr := by
          intro hcontra
          rw [if_pos hcontra] at hE
          exact hz hE
        rcases hl : mapLookup m (extract_address_from_script sha256 ripemd160
            (decode_utxo_value e.2).2).1 with _ | q
        · dsimp only
          rw [mapLookup_append_single]
          rcases hml : mapLookup m addr with _ | q2
          · rw [if_neg hne]
          · rfl
        · dsimp only
          rw [mapLookup_mapAddBalance, if_neg (fun hba => hne hba.symm)]

theorem processUtxo_lookup_hit (sha256 ripemd160 : List Nat → List Nat)
    (m : List (String × BitcoinAddress)) (e : List Nat × List Nat) (addr : String)
    (hE : entryAmount sha256 ripemd160 addr e ≠ 0) :
    mapLookup (processUtxo sha256 ripemd160 m e) addr =
      match mapLookup m addr with
      | some q => some { q with balance :=
          q.balance + entryAmount sha256 ripemd160 addr e }
      | none => some (newAddressRecord addr
          (extract_address_from_script sha256 ripemd160 (decode_utxo_value e.2).2).2
          (entryAmount sha256 ripemd160 addr e)) := by
  rcases hk : decode_utxo_key e.1 with _ | tv
  · rw [entryAmount, hk] at hE
    exact absurd rfl hE
  · rw [entryAmount, hk] at hE
    dsimp only at hE
    by_cases hz : (decode_utxo_value e.2).1 = 0
    · rw [if_pos hz] at hE
      exact absurd rfl hE
    · rw [if_neg hz] at hE
      by_cases ha : (extract_address_from_script sha256 ripemd160
          (decode_utxo_value e.2).2).1 = ""
      · rw [if_pos ha] at hE
        exact absurd rfl hE
      · rw [if_neg ha] at hE
        by_cases haddr : (extract_address_from_script sha256 ripemd160
            (decode_utxo_value e.2).2).1 = addr
        · have hEeq : entryAmount sha256 ripemd160 addr e =
              (decode_utxo_value e.2).1 := by
            rw [entryAmount, hk]
            dsimp only
            rw [if_neg hz, if_neg ha, if_pos haddr]
          rw [hEeq, processUtxo, hk]
          dsimp only
          rw [if_neg hz, if_neg ha, haddr]
          rcases hml : mapLookup m addr with _ | q
          · dsimp only
            rw [mapLookup_append_single, hml, if_pos rfl]
          · dsimp only
            rw [mapLookup_mapAddBalance, if_pos rfl, hml]
            rfl
        · rw [if_neg haddr] at hE
          exact absurd rfl hE

theorem get_all_utxos_fold (sha256 ripemd160 : List Nat → List Nat) :
    ∀ (entries : List (List Nat × List Nat)) (m : List (String × BitcoinAddress))
      (addr : String) (r : BitcoinAddress),
      mapLookup (List.foldl (processUtxo sha256 ripemd160) m entries) addr = some r →
      (∀ q, mapLookup m addr = some q →
        r.is_unspent = q.is_unspent ∧
        r.balance = q.balance + sumAmounts sha256 ripemd160 addr entries) ∧
      (mapLookup m addr = none →
        r.is_unspent = true ∧
        r.balance = sumAmounts sha256 ripemd160 addr entries ∧
        0 < sumAmounts sha256 ripemd160 addr entries) := by
  intro entries
  induction entries with
  | nil =>
    intro m addr r h
    rw [List.foldl_nil] at h
    constructor
    · intro q hq
      rw [h] at hq
      have hrq : r = q := Option.some.inj hq
      subst hrq
      exact ⟨rfl, by simp [sumAmounts]⟩
    · intro hnone
      rw [h] at hnone
      exact Option.noConfusion hnone
  | cons e es ih =>
    intro m addr r h
    rw [List.foldl_cons] at h
    have hstep := ih (processUtxo sha256 ripemd160 m e) addr r h
    by_cases hE : entryAmount sha256 ripemd160 addr e = 0
    · have hsame := processUtxo_lookup_zero sha256 ripemd160 m e addr hE
      constructor
      · intro q hq
        have hres := hstep.1 q (by rw [hsame]; exact hq)
        rw [sumAmounts_cons, hE]
        exact ⟨hres.1, by omega⟩
      · intro hnone
        have hres := hstep.2 (by rw [hsame]; exact hnone)
        rw [sumAmounts_cons, hE]
        exact ⟨hres.1, by omega, by omega⟩
    · have hhit := processUtxo_lookup_hit sha256 ripemd160 m e addr hE
      constructor
      · intro q hq
        have hm2 : mapLookup (processUtxo sha256 ripemd160 m e) addr =
            some { q with balance := q.balance + entryAmount sha256 ripemd160 addr e } := by
          rw [hhit, hq]
        have hres := hstep.1 _ hm2
        have hu : ({ q with balance :=
            q.balance + entryAmount sha256 ripemd160 addr e } : BitcoinAddress).is_unspent =
            q.is_unspent := rfl
        have hbb : ({ q with balance :=
            q.balance + entryAmount sha256 ripemd160 addr e } : BitcoinAddress).balance =
            q.balance + entryAmount sha256 ripemd160 addr e := rfl
        have hb := hres.2
        rw [hbb] at hb
        rw [sumAmounts_cons]
        exact ⟨by rw [hres.1, hu], by omega⟩
      · intro hnone
        have hm2 : mapLookup (processUtxo sha256 ripemd160 m e) addr =
            some (newAddressRecord addr
              (extract_address_from_script sha256 ripemd160 (decode_utxo_value e.2).2).2
              (entryAmount sha256 ripemd160 addr e)) := by
          rw [hhit, hnone]
        have hres := hstep.1 _ hm2
        have hu : (newAddressRecord addr
            (extract_address_from_script sha256 ripemd160 (decode_utxo_value e.2).2).2
            (entryAmount sha256 ripemd160 addr e)).is_unspent = true := rfl
        have hbb : (newAddressRecord addr
            (extract_address_from_script sha256 ripemd160 (decode_utxo_value e.2).2).2
            (entryAmount sha256 ripemd160 addr e)).balance =
            entryAmount sha256 ripemd160 addr e := rfl
        have hb := hres.2
        rw [hbb] at hb
        rw [sumAmounts_cons]
        exact ⟨by rw [hres.1, hu], by omega, by omega⟩

/-- C5: after the unspent-output index scan, every record in the resulting
map has a balance equal to the sum of the amounts of the scanned entries that
decoded (valid key tag, nonzero amount) and whose locking script classified
to that record's address, has isUnspent = true, and consequently isUnspent
implies a positive balance. -/
theorem get_all_utxos_balance_invariant (sha256 ripemd160 : List Nat → List Nat)
    (entries : List (List Nat × List Nat)) (addr : String) (r : BitcoinAddress)
    (h : mapLookup (get_all_utxos sha256 ripemd160 entries) addr = some r) :
    r.balance = sumAmounts sha256 ripemd160 addr entries ∧
    r.is_unspent = true ∧ 0 < r.balance := by
  have hfold := (get_all_utxos_fold sha256 ripemd160 entries [] addr r h).2 rfl
  exact ⟨hfold.2.1, hfold.1, by omega⟩

theorem get_all_utxos_balance_invariant_witness :
    (newAddressRecord "1111111111111111111111111" "" 5).balance =
      sumAmounts (fun _ => List.replicate 32 0) (fun _ => List.replicate 20 0)
        "1111111111111111111111111"
        [(0x43 :: (List.replicate 32 0 ++ [0]),
          5 :: (0x76 :: 0xa9 :: 20 :: (List.replicate 20 0 ++ [0x88, 0xac])))] ∧
    (newAddressRecord "1111111111111111111111111" "" 5).is_unspent = true ∧
    0 < (newAddressRecord "1111111111111111111111111" "" 5).balance :=
  get_all_utxos_balance_invariant (fun _ => List.replicate 32 0)
    (fun _ => List.replicate 20 0)
    [(0x43 :: (List.replicate 32 0 ++ [0]),
      5 :: (0x76 :: 0xa9 :: 20 :: (List.replicate 20 0 ++ [0x88, 0xac])))]
    "1111111111111111111111111" (newAddressRecord "1111111111111111111111111" "" 5)
    (by decide)

/-! ### Claims about the reconciler. -/

/-- C1: every address in the spent set is excluded from the reconciled
never-spent result; every input pair whose address is absent from the spent
set yields a record in the result with hasSpent = false, and when the
address-to-public-key map has an entry, the record's raw public key is that
entry and its compressed/uncompressed forms are derived via the key-format
converter. -/
theorem reconcile_spec (addresses : List (String × BitcoinAddress))
    (spent_addresses : List String) (address_pubkeys : List (String × String)) :
    (∀ a, a ∈ spent_addresses →
      ∀ r, (a, r) ∉ reconcile addresses spent_addresses address_pubkeys) ∧
    (∀ a r, (a, r) ∈ addresses → a ∉ spent_addresses →
      (a, reconcileRecord address_pubkeys a r) ∈
        reconcile addresses spent_addresses address_pubkeys ∧
      (reconcileRecord address_pubkeys a r).has_spent = false ∧
      (∀ pk, List.lookup a address_pubkeys = some pk →
        (reconcileRecord address_pubkeys a r).public_key = pk ∧
        (reconcileRecord address_pubkeys a r).public_key_compressed =
          compress_pubkey pk ∧
        (reconcileRecord address_pubkeys a r).public_key_uncompressed =
          uncompress_pubkey pk)) := by
  constructor
  · intro a ha r
    induction addresses with
    | nil => simp [reconcile]
    | cons p rest ih =>
      obtain ⟨pa, pr⟩ := p
      rw [reconcile]
      by_cases hsp : pa ∈ spent_addresses
      · rw [if_pos hsp]
        exact ih
      · rw [if_neg hsp]
        intro hmem2
        rcases List.mem_cons.mp hmem2 with hmem2 | hmem2
        · have ha2 : a = pa := congrArg Prod.fst hmem2
          rw [ha2] at ha
          exact hsp ha
        · exact ih hmem2
  · intro a r hmem hnots
    have hhs : (reconcileRecord address_pubkeys a r).has_spent = false := by
      rw [reconcileRecord]
    have hpkfields : ∀ pk, List.lookup a address_pubkeys = some pk →
        (reconcileRecord address_pubkeys a r).public_key = pk ∧
        (reconcileRecord address_pubkeys a r).public_key_compressed =
          compress_pubkey pk ∧
        (reconcileRecord address_pubkeys a r).public_key_uncompressed =
          uncompress_pubkey pk := by
      intro pk hpk
      rw [reconcileRecord, hpk]
      exact ⟨rfl, rfl, rfl⟩
    refine ⟨?_, hhs, hpkfields⟩
    induction addresses with
    | nil => simp at hmem
    | cons p rest ih =>
      obtain ⟨pa, pr⟩ := p
      rw [reconcile]
      rcases List.mem_cons.mp hmem with hhead | htail
      · have ha2 : a = pa := congrArg Prod.fst hhead
        have hr2 : r = pr := congrArg Prod.snd hhead
        subst ha2
        subst hr2
        rw [if_neg hnots]
        exact List.mem_cons_self _ _
      · by_cases hsp : pa ∈ spent_addresses
        · rw [if_pos hsp]
          exact ih htail
        · rw [if_neg hsp]
          exact List.mem_cons_of_mem _ (ih htail)

theorem reconcile_spec_witness :
    ("x", reconcileRecord [("x", "ab")] "x" (newAddressRecord "x" "" 5)) ∈
      reconcile [("x", newAddressRecord "x" "" 5)] [] [("x", "ab")] ∧
    (reconcileRecord [("x", "ab")] "x" (newAddressRecord "x" "" 5)).has_spent = false ∧
    (reconcileRecord [("x", "ab")] "x" (newAddressRecord "x" "" 5)).public_key = "ab" ∧
    (reconcileRecord [("x", "ab")] "x" (newAddressRecord "x" "" 5)).public_key_compressed =
      compress_pubkey "ab" ∧
    (reconcileRecord [("x", "ab")] "x" (newAddressRecord "x" "" 5)).public_key_uncompressed =
      uncompress_pubkey "ab" := by
  have h := (reconcile_spec [("x", newAddressRecord "x" "" 5)] [] [("x", "ab")]).2
    "x" (newAddressRecord "x" "" 5) (by decide) (by decide)
  have hpk := h.2.2 "ab" (by decide)
  exact ⟨h.1, h.2.1, hpk.1, hpk.2.1, hpk.2.2⟩

/-! ### Claims about the block file scanner. -/

theorem magic_cond_false : ¬(magicBytes = [] ∨ magicBytes ≠ magicBytes) := by
  rintro (h | h)
  · exact absurd h (by decide)
  · exact h rfl

theorem take4_magic (z : List Nat) : (magicBytes ++ z).take 4 = magicBytes := by
  rw [show (4 : Nat) = magicBytes.length from rfl, List.take_left]

theorem drop4_magic (z : List Nat) : (magicBytes ++ z).drop 4 = z := by
  rw [show (4 : Nat) = magicBytes.length from rfl, List.drop_left]

theorem take_len_append (l1 l2 : List Nat) (n : Nat) (h : l1.length = n) :
    (l1 ++ l2).take n = l1 := by
  rw [← h, List.take_left]

theorem drop_len_append (l1 l2 : List Nat) (n : Nat) (h : l1.length = n) :
    (l1 ++ l2).drop n = l2 := by
  rw [← h, List.drop_left]

theorem take4_le (L : Nat) (z : List Nat) :
    (natToBytesLE 4 L ++ z).take 4 = natToBytesLE 4 L :=
  take_len_append _ _ _ (natToBytesLE_length 4 L)

theorem drop4_le (L : Nat) (z : List Nat) : (natToBytesLE 4 L ++ z).drop 4 = z :=
  drop_len_append _ _ _ (natToBytesLE_length 4 L)

theorem leBytes_le4 (L : Nat) (hL : L < 2 ^ 32) :
    leBytesToNat (natToBytesLE 4 L) = L := by
  rw [leBytesToNat_natToBytesLE_mod]
  have h2 : (256 : Nat) ^ 4 = 2 ^ 32 := by norm_num
  rw [h2]
  exact Nat.mod_eq_of_lt hL

theorem frameLoop_nil (sE : List Nat → Option (List (List Nat)))
    (sha rip : List Nat → List Nat) (mb : Option Nat) (fuel bp : Nat)
    (acc : ScanAcc) : frameLoop sE sha rip mb fuel [] bp acc = acc := by
  cases fuel with
  | zero => rfl
  | succ k =>
    rw [frameLoop]
    by_cases hmb : maxBlocksReached mb bp
    · rw [if_pos hmb]
    · rw [if_neg hmb]
      simp

theorem frameLoop_mb (sE : List Nat → Option (List (List Nat)))
    (sha rip : List Nat → List Nat) (mb : Option Nat) (k : Nat) (data : List Nat)
    (bp : Nat) (acc : ScanAcc) (hmb : maxBlocksReached mb bp) :
    frameLoop sE sha rip mb (k + 1) data bp acc = acc := by
  rw [frameLoop, if_pos hmb]

theorem frameLoop_step (sE : List Nat → Option (List (List Nat)))
    (sha rip : List Nat → List Nat) (mb : Option Nat) (k K : Nat)
    (payload z : List Nat) (hK : K < 2 ^ 32) (hp : payload.length = K)
    (bp : Nat) (acc : ScanAcc) (hmb : ¬maxBlocksReached mb bp) :
    frameLoop sE sha rip mb (k + 1)
        (magicBytes ++ (natToBytesLE 4 K ++ (payload ++ z))) bp acc =
      frameLoop sE sha rip mb k z (bp + 1)
        (parse_block_data sE sha rip payload acc) := by
  rw [frameLoop, if_neg hmb]
  dsimp only
  rw [take4_magic, if_neg magic_cond_false, drop4_magic]
  have hrl : (natToBytesLE 4 K ++ (payload ++ z)).length =
      4 + (payload ++ z).length := by
    simp [natToBytesLE_length]
  rw [if_neg (by omega), take4_le, drop4_le, leBytes_le4 K hK,
    take_len_append payload z K hp, drop_len_append payload z K hp]
  rw [if_neg (fun hcon => hcon hp)]

theorem frameLoop_truncated (sE : List Nat → Option (List (List Nat)))
    (sha rip : List Nat → List Nat) (mb : Option Nat) (k L : Nat)
    (short : List Nat) (hL : L < 2 ^ 32) (hs : short.length < L) (bp : Nat)
    (acc : ScanAcc) :
    frameLoop sE sha rip mb (k + 1) (magicBytes ++ (natToBytesLE 4 L ++ short))
      bp acc = acc := by
  rw [frameLoop]
  by_cases hmb : maxBlocksReached mb bp
  · rw [if_pos hmb]
  · rw [if_neg hmb]
    dsimp only
    rw [take4_magic, if_neg magic_cond_false, drop4_magic]
    have hrl : (natToBytesLE 4 L ++ short).length = 4 + short.length := by
      simp [natToBytesLE_length]
    rw [if_neg (by omega), take4_le, drop4_le, leBytes_le4 L hL]
    rw [if_pos (by simp only [List.length_take]; omega)]

theorem frameLoop_trunc_eq (sE : List Nat → Option (List (List Nat)))
    (sha rip : List Nat → List Nat) (mb : Option Nat) (L : Nat)
    (short : List Nat) (hL : L < 2 ^ 32) (hs : short.length < L) :
    ∀ good, FrameSeq good → ∀ f1 f2 bp acc,
      good.length + (magicBytes ++ (natToBytesLE 4 L ++ short)).length < f1 →
      good.length < f2 →
      frameLoop sE sha rip mb f1
          (good ++ (magicBytes ++ (natToBytesLE 4 L ++ short))) bp acc =
        frameLoop sE sha rip mb f2 good bp acc := by
  intro good hgood
  induction hgood with
  | nil =>
    intro f1 f2 bp acc h1 h2
    rw [List.nil_append, frameLoop_nil]
    have hlen : (magicBytes ++ (natToBytesLE 4 L ++ short)).length =
        8 + short.length := by
      simp [magicBytes, natToBytesLE_length] <;> omega
    cases f1 with
    | zero => omega
    | succ k => exact frameLoop_truncated sE sha rip mb k L short hL hs bp acc
  | cons K payload rest hK hp hrest ih =>
    intro f1 f2 bp acc h1 h2
    have hglen : (magicBytes ++ natToBytesLE 4 K ++ payload ++ rest).length =
        8 + K + rest.length := by
      simp [magicBytes, natToBytesLE_length, hp] <;> omega
    have htlen : (magicBytes ++ (natToBytesLE 4 L ++ short)).length =
        8 + short.length := by
      simp [magicBytes, natToBytesLE_length] <;> omega
    cases f1 with
    | zero => omega
    | succ k1 =>
      cases f2 with
      | zero => omega
      | succ k2 =>
        by_cases hmb : maxBlocksReached mb bp
        · rw [frameLoop_mb _ _ _ _ _ _ _ _ hmb, frameLoop_mb _ _ _ _ _ _ _ _ hmb]
        · have hassoc : (magicBytes ++ natToBytesLE 4 K ++ payload ++ rest) ++
              (magicBytes ++ (natToBytesLE 4 L ++ short)) =
              magicBytes ++ (natToBytesLE 4 K ++ (payload ++
                (rest ++ (magicBytes ++ (natToBytesLE 4 L ++ short))))) := by
            simp [List.append_assoc]
          have hassoc2 : magicBytes ++ natToBytesLE 4 K ++ payload ++ rest =
              magicBytes ++ (natToBytesLE 4 K ++ (payload ++ rest)) := by
            simp [List.append_assoc]
          rw [hassoc, hassoc2, frameLoop_step sE sha rip mb k1 K payload _ hK hp bp acc hmb,
            frameLoop_step sE sha rip mb k2 K payload rest hK hp bp acc hmb]
          apply ih
          · rw [htlen]
            rw [hglen, htlen] at h1
            omega
          · rw [hglen] at h2
            omega

/-- C9: when a block file consists of complete frames followed by a frame
truncated mid-payload (valid magic, declared 4-byte little-endian length
exceeding the bytes remaining), the scanner stops that file without raising
(the translation is total) and returns exactly the spent-address set and
address-to-public-key map accumulated from the complete frames before the
truncation, for every choice of the external script/hash primitives and
every max-blocks setting. -/
theorem parse_block_file_truncated (sE : List Nat → Option (List (List Nat)))
    (sha rip : List Nat → List Nat) (mb : Option Nat) (good : List Nat)
    (L : Nat) (short : List Nat) (hgood : FrameSeq good) (hL : L < 2 ^ 32)
    (hs : short.length < L) :
    parse_block_file sE sha rip
        (good ++ (magicBytes ++ (natToBytesLE 4 L ++ short))) mb =
      parse_block_file sE sha rip good mb := by
  rw [parse_block_file, parse_block_file]
  apply frameLoop_trunc_eq sE sha rip mb L short hL hs good hgood
  · simp only [List.length_append]
    omega
  · omega

theorem parse_block_file_truncated_witness :
    parse_block_file (fun _ => none) (fun _ => List.replicate 32 0)
        (fun _ => List.replicate 20 0)
        ((magicBytes ++ natToBytesLE 4 1 ++ [0] ++ []) ++
          (magicBytes ++ (natToBytesLE 4 5 ++ [1, 2]))) none =
      parse_block_file (fun _ => none) (fun _ => List.replicate 32 0)
        (fun _ => List.replicate 20 0) (magicBytes ++ natToBytesLE 4 1 ++ [0] ++ [])
        none :=
  parse_block_file_truncated (fun _ => none) (fun _ => List.replicate 32 0)
    (fun _ => List.replicate 20 0) none (magicBytes ++ natToBytesLE 4 1 ++ [0] ++ [])
    5 [1, 2]
    (FrameSeq.cons 1 [0] [] (by decide) (by decide) FrameSeq.nil)
    (by decide) (by decide)
